import Mathlib

/-!
Verification of the Secure Envelope Subsystem of `chipa-license-validator`.

The development shallowly embeds the two core source files:

* `src/encryption.rs` — the `ChipaFile` on-disk container: `new`, `save`,
  `load`, `read`, `write`, with two encryption layers (a caller-keyed payload
  layer and a version-intrinsic "base" layer) and a 2-byte big-endian version
  prefix in the clear.
* `src/client.rs` — the secure channel `_send_secure` / `SecureResponse::json`
  and the `validate_license` flow built on it.

External crates are consumed contracts and are embedded as parameter
structures translated at their boundary:

* the `tenacity_utils` encryption capability becomes `Capability`
  (per-version `encrypt_bytes`/`decrypt_bytes`/`base_encrypt_bytes`/
  `base_decrypt_bytes` and `Version::try_from`);
* `rmp_serde` serialization becomes a `Codec` (fallible `ser`/`deser`);
* the reqwest transport and the identifier-scoped crypto of the channel
  become a `Channel` record.

Bytes are `List Nat`; file paths are `List Char` with Rust `Path` semantics
modelled through component parsing: `file_name` is the last `/`-separated
segment after skipping empty and `.` segments from the right and is absent
when that segment is `..` (or when nothing remains), `extension` splits the
file name at its last dot, and `set_extension` truncates the raw path right
after the file stem and appends the new extension, leaving the path
unchanged when there is no file name.
-/

/-- `ChipaError` from `src/encryption.rs`. The payloads of the `anyhow`-typed
variants are kept as their message strings. -/
inductive ChipaError where
  | Encode : String → ChipaError
  | Decode : String → ChipaError
  | Encryption : String → ChipaError
  | Decryption : String → ChipaError
  | FileCreation : String → ChipaError
  | InvalidFileFormat : String → ChipaError
deriving DecidableEq, Repr

/-- The external `tenacity_utils` encryption capability, at the contract
boundary used by `src/encryption.rs`. Versions are their `u16` codes.
`tryFrom` models `Version::try_from`; the four byte-level operations model
`Version::encryptor().encrypt_bytes/decrypt_bytes` (first argument the
version, then the caller key) and `Version::base_encrypt_bytes` /
`base_decrypt_bytes` (keyed by the version alone). -/
structure Capability where
  tryFrom : Nat → Except String Nat
  encrypt_bytes : Nat → String → List Nat → Except String (List Nat)
  decrypt_bytes : Nat → String → List Nat → Except String (List Nat)
  base_encrypt_bytes : Nat → List Nat → Except String (List Nat)
  base_decrypt_bytes : Nat → List Nat → Except String (List Nat)

/-- A fallible serialization codec, the boundary of `rmp_serde`
(`to_vec` / `from_slice`). -/
structure Codec (α : Type) where
  ser : α → Except String (List Nat)
  deser : List Nat → Except String α

/-- The envelope struct `ChipaFile { version, body }` of `src/encryption.rs`,
with the version as its numeric code and the body as raw bytes. -/
structure ChipaFile where
  version : Nat
  body : List Nat
deriving DecidableEq, Repr

/-- The designated container extension `"chipa"`. -/
def chipaExt : List Char := ['c', 'h', 'i', 'p', 'a']

/-- The raw `/`-separated segments of a path, empties included (so that
rejoining them with `joinSlash` reconstructs the path exactly). -/
def splitSlash : List Char → List (List Char)
  | [] => [[]]
  | c :: rest =>
    if c = '/' then [] :: splitSlash rest
    else
      match splitSlash rest with
      | [] => [[c]]
      | s :: r => (c :: s) :: r

/-- Rejoin raw segments with single `/` separators; inverse of
`splitSlash`. -/
def joinSlash : List (List Char) → List Char
  | [] => []
  | [s] => s
  | s :: t :: r => s ++ '/' :: joinSlash (t :: r)

/-- Segments that Rust's component parsing skips when looking for the final
component: empty segments (doubled or trailing slashes) and `.` (CurDir). -/
def isDotOrEmpty (s : List Char) : Bool :=
  decide (s = [] ∨ s = ['.'])

/-- `Path::file_name`: the last component after skipping empty and `.`
segments from the right; `none` when nothing remains or when that component
is `..` (ParentDir). -/
def fileName? (p : List Char) : Option (List Char) :=
  match (splitSlash p).reverse.dropWhile isDotOrEmpty with
  | [] => none
  | s :: _ => if s = ['.', '.'] then none else some s

/-- `Path::extension` on a file name: `none` when there is no `.` or when the
only `.` leads the name (hidden files); otherwise the part after the last
`.`. -/
def extOfName (f : List Char) : Option (List Char) :=
  if '.' ∈ f then
    if ((f.reverse.dropWhile (fun c => c ≠ '.')).drop 1) = [] then none
    else some ((f.reverse.takeWhile (fun c => c ≠ '.')).reverse)
  else none

/-- `Path::file_stem` on a file name: the part before the last `.`, or the
whole name when `extOfName` is `none`. -/
def stemOfName (f : List Char) : List Char :=
  match extOfName f with
  | some _ => ((f.reverse.dropWhile (fun c => c ≠ '.')).drop 1).reverse
  | none => f

/-- `Path::extension` of a path: the extension of its file name, when
there is one. -/
def extension (p : List Char) : Option (List Char) :=
  match fileName? p with
  | some f => extOfName f
  | none => none

/-- `PathBuf::set_extension`: when the path has no file name it is a no-op
(Rust returns `false` and leaves the path unchanged); otherwise the buffer
is truncated right after the file stem — raw segments before the file name
kept verbatim, anything after it discarded — and `.` plus the new extension
is appended. -/
def setExtension (p : List Char) (e : List Char) : List Char :=
  match (splitSlash p).reverse.dropWhile isDotOrEmpty with
  | [] => p
  | s :: before =>
    if s = ['.', '.'] then p
    else joinSlash (before.reverse ++ [stemOfName s ++ '.' :: e])

/-- The path-normalization prelude of `ChipaFile::save`
(`src/encryption.rs` lines 56-66): a missing or non-`chipa` extension is
silently rewritten to `chipa`. -/
def savePath (p : List Char) : List Char :=
  match extension p with
  | some e => if e ≠ chipaExt then setExtension p chipaExt else p
  | none => setExtension p chipaExt

/-- The extension guard of `ChipaFile::load` (`src/encryption.rs` lines
91-106): a missing or non-`chipa` extension is an immediate
`InvalidFileFormat` error. -/
def loadExtCheck (p : List Char) : Except ChipaError Unit :=
  match extension p with
  | some e =>
    if e ≠ chipaExt then
      .error (.InvalidFileFormat
        ("Expected file to end with .chipa, found " ++ String.mk e))
    else .ok ()
  | none =>
    .error (.InvalidFileFormat "Expected file to end with .chipa, found none")

/-- `ChipaFile::encrypt_body`: payload-layer encryption with the caller key,
under the envelope's own version. -/
def ChipaFile.encrypt_body (cap : Capability) (f : ChipaFile) (key : String) :
    Except ChipaError (List Nat) :=
  (cap.encrypt_bytes f.version key f.body).mapError ChipaError.Encryption

/-- `ChipaFile::decrypt_body`: payload-layer decryption with the caller key,
under the envelope's own version. -/
def ChipaFile.decrypt_body (cap : Capability) (f : ChipaFile) (key : String) :
    Except ChipaError (List Nat) :=
  (cap.decrypt_bytes f.version key f.body).mapError ChipaError.Decryption

/-- `ChipaFile::new`: serialize the payload and store the serialized bytes as
the body, with the given version. -/
def ChipaFile.new {α : Type} (pc : Codec α) (version : Nat) (body : α) :
    Except ChipaError ChipaFile :=
  match pc.ser body with
  | .error e => .error (.Encode e)
  | .ok b => .ok { version := version, body := b }

/-- `ChipaFile::save` (`src/encryption.rs` lines 55-88). The filesystem write
is represented by returning the normalized path together with the exact bytes
written to it: the 2-byte big-endian version prefix followed by the
base-encrypted serialized envelope (whose body is the payload-layer
ciphertext). -/
def ChipaFile.save (cap : Capability) (envc : Codec ChipaFile) (f : ChipaFile)
    (path : List Char) (key : String) :
    Except ChipaError (List Char × List Nat) := do
  let path := savePath path
  let start := [f.version / 256 % 256, f.version % 256]
  let body ← f.encrypt_body cap key
  let file : ChipaFile := { version := f.version, body := body }
  let data ← (envc.ser file).mapError ChipaError.Encode
  let dataEncrypted ←
    (cap.base_encrypt_bytes f.version data).mapError ChipaError.Encryption
  pure (path, start ++ dataEncrypted)

/-- `ChipaFile::load` (`src/encryption.rs` lines 90-126). The filesystem read
is represented by passing the file's bytes alongside the path. -/
def ChipaFile.load (cap : Capability) (envc : Codec ChipaFile)
    (path : List Char) (file : List Nat) (key : String) :
    Except ChipaError ChipaFile := do
  loadExtCheck path
  match file with
  | b0 :: b1 :: rest => do
    let version := b0 * 256 + b1
    let v ← (cap.tryFrom version).mapError ChipaError.Decryption
    let slice ← (cap.base_decrypt_bytes v rest).mapError ChipaError.Decryption
    let chipa ← (envc.deser slice).mapError ChipaError.Decode
    let body ← chipa.decrypt_body cap key
    pure { version := chipa.version, body := body }
  | _ => throw (.InvalidFileFormat "File is too small")

/-- `ChipaFile::read`: deserialize the body; takes no key and no capability. -/
def ChipaFile.read {α : Type} (pc : Codec α) (f : ChipaFile) :
    Except ChipaError α :=
  (pc.deser f.body).mapError ChipaError.Decode

/-- `ChipaFile::write`: re-serialize and replace the in-memory body; does not
touch disk. -/
def ChipaFile.write {α : Type} (pc : Codec α) (f : ChipaFile) (data : α) :
    Except ChipaError ChipaFile :=
  match pc.ser data with
  | .error e => .error (.Encode e)
  | .ok b => .ok { f with body := b }

/-- `ChipaFile::save` takes `&self` and never reassigns it (the encrypted
copy is a fresh temporary), so the envelope after a call to `save` is the
unchanged receiver. This wrapper pairs `save`'s result with the envelope as
it stands after the call. -/
def ChipaFile.saveWithState (cap : Capability) (envc : Codec ChipaFile)
    (f : ChipaFile) (path : List Char) (key : String) :
    Except ChipaError (List Char × List Nat) × ChipaFile :=
  (ChipaFile.save cap envc f path key, f)

/-! ## The secure channel (`src/client.rs`) -/

/-- HTTP methods used by the client. -/
inductive Method where
  | GET : Method
  | POST : Method
deriving DecidableEq, Repr

/-- `ApiError { error }`, the decoded non-success response payload. -/
structure ApiError where
  error : String
deriving DecidableEq, Repr

/-- `ValidateResponse { success, token }`, the decoded success response
payload (`_success` in the source, renamed to `success` on the wire). -/
structure ValidateResponse where
  success : String
  token : String
deriving DecidableEq, Repr

/-- `TError` from `src/client.rs`; `anyhow`/`serde_json`/`reqwest`/`uuid`
payloads are kept as their message strings, `Response` keeps the decoded
`ApiError`. -/
inductive TError where
  | Anyhow : String → TError
  | Parsing : String → TError
  | Request : String → TError
  | Response : ApiError → TError
  | UuidParsing : String → TError
deriving DecidableEq, Repr

/-- `SecureResponse { status, body }`; the status code is a bare number. -/
structure SecureResponse where
  status : Nat
  body : Option String
deriving DecidableEq, Repr

/-- A request as built by `_send_secure` just before execution: method, URL,
the encrypted `Authorization` header, the protocol-version header, and the
optional content-type header and encrypted body. -/
structure BuiltRequest where
  method : Method
  url : String
  authorization : String
  versionHeader : String
  contentType : Option String
  body : Option String
deriving DecidableEq, Repr

/-- The external collaborators of `_send_secure`: the identifier-scoped
encryption operations of the `Version::V1` encryptor
(`encrypt_header` / `encrypt` / `decrypt`, each taking the correlation
identifier) and the reqwest transport (`execute`, returning status code and
response text). -/
structure Channel where
  encrypt_header : String → Except String String
  encrypt : String → String → Except String String
  decrypt : String → String → Except String String
  execute : BuiltRequest → Except String (Nat × String)

/-- `StatusCode::is_success`: the 2xx range. -/
def isSuccessStatus (s : Nat) : Bool :=
  200 ≤ s && s < 300

/-- The request-building step of `_send_secure` (`src/client.rs` lines
85-101): attach the encrypted id header and the `v1` version header; when a
body is present, serialize it to JSON, encrypt it under the correlation
identifier, and attach it with a JSON content type. -/
def buildRequest {α : Type} (ch : Channel) (toJson : α → Except String String)
    (idHeader : String) (url : String) (body : Option α) (method : Method)
    (id : String) : Except TError BuiltRequest :=
  let request : BuiltRequest :=
    { method := method, url := url, authorization := idHeader,
      versionHeader := "v1", contentType := none, body := none }
  match body with
  | some b => do
    let s ← (toJson b).mapError TError.Parsing
    let c ← (ch.encrypt id s).mapError TError.Anyhow
    pure { request with contentType := some "application/json", body := some c }
  | none => pure request

/-- `TClient::_send_secure` (`src/client.rs` lines 76-116): build and execute
the request, then return the status with no body when the response text is
empty, and with the identifier-scoped decryption of the text otherwise. -/
def sendSecure {α : Type} (ch : Channel) (toJson : α → Except String String)
    (url : String) (body : Option α) (method : Method) (id : String) :
    Except TError SecureResponse := do
  let idHeader ← (ch.encrypt_header id).mapError TError.Anyhow
  let req ← buildRequest ch toJson idHeader url body method id
  let (status, text) ← (ch.execute req).mapError TError.Request
  match text.isEmpty with
  | true => pure { status := status, body := none }
  | false => do
    let decrypted ← (ch.decrypt id text).mapError TError.Anyhow
    pure { status := status, body := some decrypted }

/-- `SecureResponse::json` (`src/client.rs` lines 142-154), over an abstract
`serde_json` decoder for the target shape. -/
def SecureResponse.json {α : Type} (decode : String → Except String α)
    (r : SecureResponse) : Except TError α :=
  match r.body with
  | some b => (decode b).mapError TError.Parsing
  | none => .error (.Parsing "Expected body to be some found none")

/-- `TClient::validate_license` (`src/client.rs` lines 118-137): GET
`{base}/subscriptions/validateapp/{license}/{application}` with no body and
the license as correlation identifier; on a success status decode the body as
`ValidateResponse` and return its token, otherwise decode it as `ApiError`
and fail with it. `decodeValidate` and `decodeApiError` are the abstract
`serde_json` decoders for the two shapes. -/
def validate_license (ch : Channel)
    (decodeValidate : String → Except String ValidateResponse)
    (decodeApiError : String → Except String ApiError)
    (base_url license application : String) : Except TError String := do
  let url :=
    base_url ++ "/subscriptions/validateapp/" ++ license ++ "/" ++ application
  let req ← sendSecure ch (fun (_ : Unit) => .ok "null") url none .GET license
  match isSuccessStatus req.status with
  | true => do
    let body ← req.json decodeValidate
    pure body.token
  | false => do
    let body ← req.json decodeApiError
    throw (.Response body)

/-! ## Path lemmas -/

/-- `splitSlash` always yields at least one segment. -/
theorem splitSlash_ne_nil (p : List Char) : splitSlash p ≠ [] := by
  cases p with
  | nil => simp [splitSlash]
  | cons c rest =>
    simp only [splitSlash]
    by_cases hc : c = '/'
    · simp [hc]
    · simp only [hc, if_false]
      cases splitSlash rest <;> simp

/-- Segments produced by `splitSlash` contain no `/`. -/
theorem mem_splitSlash_no_slash {p s : List Char} {c : Char}
    (hs : s ∈ splitSlash p) (hc : c ∈ s) : c ≠ '/' := by
  induction p generalizing s with
  | nil =>
    simp [splitSlash] at hs
    subst hs; simp at hc
  | cons a rest ih =>
    simp only [splitSlash] at hs
    by_cases ha : a = '/'
    · rw [if_pos ha] at hs
      rcases List.mem_cons.mp hs with rfl | h
      · simp at hc
      · exact ih h hc
    · rw [if_neg ha] at hs
      cases hsp : splitSlash rest with
      | nil =>
        rw [hsp] at hs
        simp at hs
        subst hs
        simp at hc
        subst hc
        exact ha
      | cons s0 r =>
        rw [hsp] at hs
        rcases List.mem_cons.mp hs with rfl | h
        · rcases List.mem_cons.mp hc with rfl | h2
          · exact ha
          · exact ih (by rw [hsp]; exact List.mem_cons_self _ _) h2
        · exact ih (by rw [hsp]; exact List.mem_cons_of_mem _ h) hc

/-- A slash-free list is a single segment. -/
theorem splitSlash_no_slash {x : List Char} (h : ∀ c ∈ x, c ≠ '/') :
    splitSlash x = [x] := by
  induction x with
  | nil => rfl
  | cons c x' ih =>
    simp only [splitSlash]
    rw [if_neg (h c (List.mem_cons_self c x'))]
    rw [ih (fun d hd => h d (List.mem_cons_of_mem _ hd))]

/-- Splitting after a slash-free prefix and a separator peels one segment. -/
theorem splitSlash_append {x t : List Char} (h : ∀ c ∈ x, c ≠ '/') :
    splitSlash (x ++ '/' :: t) = x :: splitSlash t := by
  induction x with
  | nil => simp [splitSlash]
  | cons c x' ih =>
    rw [List.cons_append]
    simp only [splitSlash]
    rw [if_neg (h c (List.mem_cons_self c x'))]
    rw [ih (fun d hd => h d (List.mem_cons_of_mem _ hd))]

/-- `splitSlash` undoes `joinSlash` on nonempty slash-free segment lists. -/
theorem splitSlash_joinSlash {xs : List (List Char)} (hne : xs ≠ [])
    (h : ∀ s ∈ xs, ∀ c ∈ s, c ≠ '/') :
    splitSlash (joinSlash xs) = xs := by
  induction xs with
  | nil => exact absurd rfl hne
  | cons s rest ih =>
    cases rest with
    | nil => exact splitSlash_no_slash (h s (List.mem_cons_self _ _))
    | cons t r =>
      simp only [joinSlash]
      rw [splitSlash_append (h s (List.mem_cons_self _ _))]
      rw [ih (by simp) (fun u hu => h u (List.mem_cons_of_mem _ hu))]

/-- The head of a `dropWhile` result fails the predicate. -/
theorem dropWhile_cons_false {α : Type} (q : α → Bool) (l : List α)
    (s : α) (t : List α) (h : l.dropWhile q = s :: t) : q s = false := by
  induction l with
  | nil => simp [List.dropWhile] at h
  | cons a l' ih =>
    rw [List.dropWhile_cons] at h
    by_cases ha : q a = true
    · rw [if_pos ha] at h; exact ih h
    · rw [if_neg ha] at h
      injection h with h1 h2
      subst h1
      simpa using ha

/-- Gluing a nonempty stem, a dot and the `chipa` extension yields a name
whose extension is exactly `chipa`. -/
theorem extOfName_stem (s : List Char) (hs : s ≠ []) :
    extOfName (s ++ '.' :: chipaExt) = some chipaExt := by
  have hrev : (s ++ '.' :: chipaExt).reverse
      = chipaExt.reverse ++ '.' :: s.reverse := by
    simp
  rw [extOfName, if_pos (by simp), hrev]
  have hdrop : (chipaExt.reverse ++ '.' :: s.reverse).dropWhile
      (fun c => c ≠ '.') = '.' :: s.reverse := rfl
  have htake : (chipaExt.reverse ++ '.' :: s.reverse).takeWhile
      (fun c => c ≠ '.') = chipaExt.reverse := rfl
  rw [hdrop, htake]
  simp [hs]

/-- A nonempty file name has a nonempty stem (the `extOfName` branch that
yields an extension insists on it; the other branch keeps the whole name). -/
theorem stemOfName_ne_nil {f : List Char} (hf : f ≠ []) : stemOfName f ≠ [] := by
  rw [stemOfName]
  cases hx : extOfName f with
  | none => exact hf
  | some e =>
    rw [extOfName] at hx
    by_cases h1 : '.' ∈ f
    · rw [if_pos h1] at hx
      by_cases h2 : ((f.reverse.dropWhile (fun c => c ≠ '.')).drop 1) = []
      · rw [if_pos h2] at hx; exact absurd hx (by simp)
      · intro hc; exact h2 (by simpa using hc)
    · rw [if_neg h1] at hx; exact absurd hx (by simp)

/-- The stem is made of characters of the file name. -/
theorem mem_stemOfName {f : List Char} {c : Char} (h : c ∈ stemOfName f) :
    c ∈ f := by
  rw [stemOfName] at h
  cases hx : extOfName f with
  | none => rw [hx] at h; exact h
  | some e =>
    rw [hx, List.mem_reverse] at h
    have h2 := List.drop_subset 1 _ h
    have h3 := (List.dropWhile_sublist _).subset h2
    exact List.mem_reverse.mp h3

/-- `setExtension _ chipaExt` on a path that has a file name produces a path
whose extension is `chipa`. -/
theorem extension_setExtension (p : List Char) (hfn : fileName? p ≠ none) :
    extension (setExtension p chipaExt) = some chipaExt := by
  simp only [setExtension]
  cases hrs : (splitSlash p).reverse.dropWhile isDotOrEmpty with
  | nil =>
    exact absurd (by simp only [fileName?, hrs]) hfn
  | cons s before =>
    have hdot : s ≠ ['.', '.'] := by
      intro h
      apply hfn
      simp only [fileName?, hrs]
      simp [h]
    show extension
      (if s = ['.', '.'] then p
       else joinSlash (before.reverse ++ [stemOfName s ++ '.' :: chipaExt]))
      = some chipaExt
    rw [if_neg hdot]
    have hjunk : isDotOrEmpty s = false := dropWhile_cons_false _ _ _ _ hrs
    have hsne : s ≠ [] := by
      intro h; rw [h] at hjunk; simp [isDotOrEmpty] at hjunk
    have hsmem : s ∈ splitSlash p := by
      have hmem : s ∈ (splitSlash p).reverse.dropWhile isDotOrEmpty := by
        rw [hrs]; exact List.mem_cons_self _ _
      exact List.mem_reverse.mp ((List.dropWhile_sublist _).subset hmem)
    have hbeforemem : ∀ u ∈ before, u ∈ splitSlash p := by
      intro u hu
      have hmem : u ∈ (splitSlash p).reverse.dropWhile isDotOrEmpty := by
        rw [hrs]; exact List.mem_cons_of_mem _ hu
      exact List.mem_reverse.mp ((List.dropWhile_sublist _).subset hmem)
    have hname : ∀ c ∈ stemOfName s ++ '.' :: chipaExt, c ≠ '/' := by
      intro c hc
      rcases List.mem_append.mp hc with h | h
      · exact mem_splitSlash_no_slash hsmem (mem_stemOfName h)
      · simp [chipaExt] at h
        rcases h with rfl | rfl | rfl | rfl | rfl | rfl <;> decide
    have hall : ∀ u ∈ before.reverse ++ [stemOfName s ++ '.' :: chipaExt],
        ∀ c ∈ u, c ≠ '/' := by
      intro u hu
      rcases List.mem_append.mp hu with h | h
      · exact fun c hc =>
          mem_splitSlash_no_slash (hbeforemem u (List.mem_reverse.mp h)) hc
      · simp at h; subst h; exact hname
    have hnlen : (stemOfName s ++ '.' :: chipaExt).length
        = (stemOfName s).length + 6 := by simp [chipaExt]
    have hnjunk : isDotOrEmpty (stemOfName s ++ '.' :: chipaExt) = false := by
      simp only [isDotOrEmpty, decide_eq_false_iff_not]
      rintro (h | h)
      · rw [h] at hnlen; simp at hnlen
      · rw [h] at hnlen; simp at hnlen
    have hndd : stemOfName s ++ '.' :: chipaExt ≠ ['.', '.'] := by
      intro h
      have hlen2 := congrArg List.length h
      rw [hnlen] at hlen2; simp at hlen2
    have hfn2 : fileName?
        (joinSlash (before.reverse ++ [stemOfName s ++ '.' :: chipaExt]))
        = some (stemOfName s ++ '.' :: chipaExt) := by
      simp only [fileName?]
      rw [splitSlash_joinSlash (by simp) hall]
      rw [List.reverse_append]
      simp only [List.reverse_cons, List.reverse_nil, List.nil_append,
        List.reverse_reverse, List.singleton_append]
      rw [List.dropWhile_cons, if_neg (by rw [hnjunk]; simp)]
      show (if (stemOfName s ++ '.' :: chipaExt) = ['.', '.'] then none
            else some (stemOfName s ++ '.' :: chipaExt))
          = some (stemOfName s ++ '.' :: chipaExt)
      rw [if_neg hndd]
    simp only [extension, hfn2]
    exact extOfName_stem _ (stemOfName_ne_nil hsne)

/-- `savePath` is the identity on paths already carrying the `chipa`
extension. -/
theorem savePath_of_chipa {p : List Char} (h : extension p = some chipaExt) :
    savePath p = p := by
  rw [savePath, h]; simp

/-- `savePath` rewrites any other path with `setExtension`. -/
theorem savePath_of_not_chipa {p : List Char}
    (h : extension p ≠ some chipaExt) :
    savePath p = setExtension p chipaExt := by
  rw [savePath]
  cases hx : extension p with
  | none => rfl
  | some e =>
    have he : e ≠ chipaExt := fun hh => h (by rw [hx, hh])
    simp [he]

/-- The load-side extension guard passes exactly on `chipa` paths. -/
theorem loadExtCheck_chipa {p : List Char}
    (h : extension p = some chipaExt) : loadExtCheck p = .ok () := by
  rw [loadExtCheck, h]; simp

/-- On any other path the load-side guard raises `InvalidFileFormat`. -/
theorem loadExtCheck_err {p : List Char}
    (h : extension p ≠ some chipaExt) :
    ∃ m, loadExtCheck p = .error (.InvalidFileFormat m) := by
  rw [loadExtCheck]
  cases hx : extension p with
  | none => exact ⟨_, rfl⟩
  | some e =>
    have he : e ≠ chipaExt := fun hh => h (by rw [hx, hh])
    refine ⟨"Expected file to end with .chipa, found " ++ String.mk e, ?_⟩
    simp [he]

/-! ## Concrete fixtures used by the witnesses -/

/-- Whether a result is an `InvalidFileFormat` error. -/
def isInvalidFileFormat : Except ChipaError ChipaFile → Bool
  | .error (.InvalidFileFormat _) => true
  | _ => false

/-- A one-byte payload codec for naturals. -/
def natCodec : Codec Nat where
  ser := fun n => .ok [n]
  deser := fun l =>
    match l with
    | [n] => .ok n
    | _ => .error "expected a single byte"

/-- A head-tagged envelope codec: version byte followed by the body. -/
def envPairCodec : Codec ChipaFile where
  ser := fun f => .ok (f.version :: f.body)
  deser := fun l =>
    match l with
    | v :: b => .ok { version := v, body := b }
    | [] => .error "empty envelope"

/-- A concrete capability recognizing only version 1: the payload layer
prefixes a marker byte and only the key `"k1"` can remove it; the base layer
reverses the bytes. -/
def testCap : Capability where
  tryFrom := fun n => if n = 1 then .ok 1 else .error "unknown version"
  encrypt_bytes := fun _ _ b => .ok (7 :: b)
  decrypt_bytes := fun _ k b =>
    if k = "k1" then
      match b with
      | 7 :: r => .ok r
      | _ => .error "corrupt ciphertext"
    else .error "wrong key"
  base_encrypt_bytes := fun _ b => .ok b.reverse
  base_decrypt_bytes := fun _ b => .ok b.reverse

/-- A concrete channel whose transport answers 200 with ciphertext `"ct"`
decrypting to `"pt"`. -/
def testChannel : Channel where
  encrypt_header := fun i => .ok ("H:" ++ i)
  encrypt := fun _ s => .ok s
  decrypt := fun _ s => if s = "ct" then .ok "pt" else .error "bad ciphertext"
  execute := fun _ => .ok (200, "ct")

/-- A concrete channel whose transport answers 204 with an empty body. -/
def emptyBodyChannel : Channel where
  encrypt_header := fun i => .ok ("H:" ++ i)
  encrypt := fun _ s => .ok s
  decrypt := fun _ _ => .error "decrypt must not be reached"
  execute := fun _ => .ok (204, "")

/-- A concrete channel whose transport answers 403 with ciphertext `"cx"`
decrypting to `"px"`, which neither decoder accepts. -/
def errorChannel : Channel where
  encrypt_header := fun i => .ok ("H:" ++ i)
  encrypt := fun _ s => .ok s
  decrypt := fun _ s => if s = "cx" then .ok "px" else .error "bad ciphertext"
  execute := fun _ => .ok (403, "cx")

/-- A concrete decoder for `ValidateResponse` recognizing only `"pt"`. -/
def decodeValidateTest : String → Except String ValidateResponse :=
  fun s =>
    if s = "pt" then .ok { success := "true", token := "tok" }
    else .error "bad validate shape"

/-- A concrete decoder for `ApiError` recognizing only `"pt"`. -/
def decodeApiErrorTest : String → Except String ApiError :=
  fun s =>
    if s = "pt" then .ok { error := "denied" } else .error "bad error shape"

/-! ## Claims -/

/-- C1: Round-trip. For every payload, every path with the `chipa` extension
and every key, `new` then `save` then `load` then `read` returns the original
payload, under the hypotheses that the codecs round-trip on the produced
bytes and that the version's encryption capability inverts `encrypt_bytes`
with the same key and `base_encrypt_bytes`. -/
theorem c1_save_load_roundtrip (cap : Capability) (envc : Codec ChipaFile)
    {α : Type} (pc : Codec α) (v : Nat) (payload : α) (path : List Char)
    (key : String) (pb eb db bb : List Nat)
    (hv : v < 65536)
    (hext : extension path = some chipaExt)
    (htf : cap.tryFrom v = .ok v)
    (hser : pc.ser payload = .ok pb)
    (hdeser : pc.deser pb = .ok payload)
    (henc : cap.encrypt_bytes v key pb = .ok eb)
    (hdec : cap.decrypt_bytes v key eb = .ok pb)
    (hes : envc.ser ⟨v, eb⟩ = .ok db)
    (hed : envc.deser db = .ok ⟨v, eb⟩)
    (hbe : cap.base_encrypt_bytes v db = .ok bb)
    (hbd : cap.base_decrypt_bytes v bb = .ok db) :
    (do
      let f ← ChipaFile.new pc v payload
      let r ← ChipaFile.save cap envc f path key
      let g ← ChipaFile.load cap envc r.1 r.2 key
      ChipaFile.read pc g) = .ok payload := by
  have hbytes : v / 256 % 256 * 256 + v % 256 = v := by omega
  simp only [ChipaFile.new, ChipaFile.save, ChipaFile.load, ChipaFile.read,
    ChipaFile.encrypt_body, ChipaFile.decrypt_body,
    savePath_of_chipa hext, loadExtCheck_chipa hext,
    hser, henc, hes, hbe, Except.mapError,
    Bind.bind, Except.bind, pure, Except.pure, List.cons_append,
    List.nil_append, hbytes, htf, hbd, hed, hdec, hdeser]

/-- C1 witness: a concrete round-trip of payload `42` through `testCap` at
path `t.chipa` with key `"k1"`. -/
theorem c1_save_load_roundtrip_witness :
    (do
      let f ← ChipaFile.new natCodec 1 42
      let r ← ChipaFile.save testCap envPairCodec f ['t', '.', 'c', 'h', 'i', 'p', 'a'] "k1"
      let g ← ChipaFile.load testCap envPairCodec r.1 r.2 "k1"
      ChipaFile.read natCodec g) = .ok 42 :=
  c1_save_load_roundtrip testCap envPairCodec natCodec 1 42
    ['t', '.', 'c', 'h', 'i', 'p', 'a'] "k1" [42] [7, 42] [1, 7, 42]
    [42, 7, 1] (by decide) (by decide) rfl rfl rfl rfl rfl rfl rfl rfl rfl

/-- C2: Wrong-key rejection. After a successful `save` under `key`, `load`
with a key on which the capability's `decrypt_bytes` fails returns a
`ChipaError.Decryption` error, not a silently wrong envelope. -/
theorem c2_wrong_key_rejection (cap : Capability) (envc : Codec ChipaFile)
    (v : Nat) (path : List Char) (key key2 : String)
    (pb eb db bb : List Nat) (msg : String)
    (hv : v < 65536)
    (hext : extension path = some chipaExt)
    (htf : cap.tryFrom v = .ok v)
    (henc : cap.encrypt_bytes v key pb = .ok eb)
    (hes : envc.ser ⟨v, eb⟩ = .ok db)
    (hed : envc.deser db = .ok ⟨v, eb⟩)
    (hbe : cap.base_encrypt_bytes v db = .ok bb)
    (hbd : cap.base_decrypt_bytes v bb = .ok db)
    (hwrong : cap.decrypt_bytes v key2 eb = .error msg) :
    ChipaFile.save cap envc ⟨v, pb⟩ path key
      = .ok (path, [v / 256 % 256, v % 256] ++ bb)
    ∧ ChipaFile.load cap envc path ([v / 256 % 256, v % 256] ++ bb) key2
      = .error (.Decryption msg) := by
  have hbytes : v / 256 % 256 * 256 + v % 256 = v := by omega
  constructor
  · simp only [ChipaFile.save, ChipaFile.encrypt_body,
      savePath_of_chipa hext, henc, hes, hbe, Except.mapError,
      Bind.bind, Except.bind, pure, Except.pure]
  · simp only [ChipaFile.load, ChipaFile.decrypt_body,
      loadExtCheck_chipa hext, List.cons_append, List.nil_append,
      Bind.bind, Except.bind, Except.mapError, hbytes, htf, hbd, hed, hwrong]

/-- C2 witness: saving under `"k1"` then loading under `"k2"` with `testCap`
fails with the capability's wrong-key Decryption error. -/
theorem c2_wrong_key_rejection_witness :
    ChipaFile.save testCap envPairCodec ⟨1, [42]⟩
        ['t', '.', 'c', 'h', 'i', 'p', 'a'] "k1"
      = .ok (['t', '.', 'c', 'h', 'i', 'p', 'a'], [0, 1] ++ [42, 7, 1])
    ∧ ChipaFile.load testCap envPairCodec ['t', '.', 'c', 'h', 'i', 'p', 'a']
        ([0, 1] ++ [42, 7, 1]) "k2" = .error (.Decryption "wrong key") :=
  c2_wrong_key_rejection testCap envPairCodec 1
    ['t', '.', 'c', 'h', 'i', 'p', 'a'] "k1" "k2" [42] [7, 42] [1, 7, 42]
    [42, 7, 1] "wrong key" (by decide) (by decide) rfl rfl rfl rfl rfl rfl rfl

/-- The request `validate_license` hands to the transport: a GET on
`{base}/subscriptions/validateapp/{license}/{application}` with the encrypted
header, the `v1` version header, and no content type or body. -/
def validateRequest (base license application hdr : String) : BuiltRequest :=
  { method := .GET,
    url := base ++ "/subscriptions/validateapp/" ++ license ++ "/"
      ++ application,
    authorization := hdr, versionHeader := "v1", contentType := none,
    body := none }

/-- `buildRequest` never consults the channel's `decrypt` operation. -/
theorem buildRequest_decrypt_irrel {α : Type} (ch : Channel)
    (d : String → String → Except String String)
    (toJson : α → Except String String) (hdr url : String) (body : Option α)
    (method : Method) (id : String) :
    buildRequest { ch with decrypt := d } toJson hdr url body method id
      = buildRequest ch toJson hdr url body method id := by
  cases body <;> rfl

/-- C3: `validate_license` issues exactly `validateRequest` (a GET on the
validation URL with no body, correlation-scoped by the license) and: on a
success status returns the token of the body decoded as `ValidateResponse`;
on a non-success status fails with a `Response` error carrying the decoded
`ApiError`; when the decrypted (or absent) body does not decode as the
expected shape — `ValidateResponse` on success, `ApiError` on non-success —
it fails with a `Parsing` error. -/
theorem c3_validate_license_behaviour (ch : Channel)
    (dv : String → Except String ValidateResponse)
    (da : String → Except String ApiError)
    (base license application hdr : String)
    (hh : ch.encrypt_header license = .ok hdr) :
    (∀ status text d vr,
      ch.execute (validateRequest base license application hdr)
        = .ok (status, text) →
      text.isEmpty = false → ch.decrypt license text = .ok d →
      isSuccessStatus status = true → dv d = .ok vr →
      validate_license ch dv da base license application = .ok vr.token)
    ∧ (∀ status text d ae,
      ch.execute (validateRequest base license application hdr)
        = .ok (status, text) →
      text.isEmpty = false → ch.decrypt license text = .ok d →
      isSuccessStatus status = false → da d = .ok ae →
      validate_license ch dv da base license application
        = .error (.Response ae))
    ∧ (∀ status text d m,
      ch.execute (validateRequest base license application hdr)
        = .ok (status, text) →
      text.isEmpty = false → ch.decrypt license text = .ok d →
      isSuccessStatus status = true → dv d = .error m →
      validate_license ch dv da base license application
        = .error (.Parsing m))
    ∧ (∀ status,
      ch.execute (validateRequest base license application hdr)
        = .ok (status, "") →
      isSuccessStatus status = true →
      validate_license ch dv da base license application
        = .error (.Parsing "Expected body to be some found none"))
    ∧ (∀ status text d m,
      ch.execute (validateRequest base license application hdr)
        = .ok (status, text) →
      text.isEmpty = false → ch.decrypt license text = .ok d →
      isSuccessStatus status = false → da d = .error m →
      validate_license ch dv da base license application
        = .error (.Parsing m))
    ∧ (∀ status,
      ch.execute (validateRequest base license application hdr)
        = .ok (status, "") →
      isSuccessStatus status = false →
      validate_license ch dv da base license application
        = .error (.Parsing "Expected body to be some found none")) := by
  have hemp : "".isEmpty = true := rfl
  refine ⟨?_, ?_, ?_, ?_, ?_, ?_⟩
  · intro status text d vr hexec hne hdec hsucc hdv
    simp only [validateRequest] at hexec
    simp only [validate_license, sendSecure, buildRequest,
      SecureResponse.json, hh, hexec, hne, hdec, hsucc, hdv,
      Except.mapError, Bind.bind, Except.bind, pure, Except.pure]
  · intro status text d ae hexec hne hdec hsucc hda
    simp only [validateRequest] at hexec
    simp only [validate_license, sendSecure, buildRequest,
      SecureResponse.json, hh, hexec, hne, hdec, hsucc, hda,
      Except.mapError, Bind.bind, Except.bind, pure, Except.pure,
      throw, throwThe, MonadExceptOf.throw]
  · intro status text d m hexec hne hdec hsucc hdv
    simp only [validateRequest] at hexec
    simp only [validate_license, sendSecure, buildRequest,
      SecureResponse.json, hh, hexec, hne, hdec, hsucc, hdv,
      Except.mapError, Bind.bind, Except.bind, pure, Except.pure]
  · intro status hexec hsucc
    simp only [validateRequest] at hexec
    simp only [validate_license, sendSecure, buildRequest,
      SecureResponse.json, hh, hexec, hemp, hsucc,
      Except.mapError, Bind.bind, Except.bind, pure, Except.pure]
  · intro status text d m hexec hne hdec hsucc hda
    simp only [validateRequest] at hexec
    simp only [validate_license, sendSecure, buildRequest,
      SecureResponse.json, hh, hexec, hne, hdec, hsucc, hda,
      Except.mapError, Bind.bind, Except.bind, pure, Except.pure]
  · intro status hexec hsucc
    simp only [validateRequest] at hexec
    simp only [validate_license, sendSecure, buildRequest,
      SecureResponse.json, hh, hexec, hemp, hsucc,
      Except.mapError, Bind.bind, Except.bind, pure, Except.pure]

/-- C3 witness: against `testChannel` (200, ciphertext `"ct"` decrypting to
`"pt"` decoded as a `ValidateResponse`), validation returns the token;
against `errorChannel` (403, plaintext `"px"` that does not decode as an
`ApiError`), validation fails with the decoder's Parsing error. -/
theorem c3_validate_license_behaviour_witness :
    validate_license testChannel decodeValidateTest decodeApiErrorTest
      "b" "lic" "app" = .ok "tok"
    ∧ validate_license errorChannel decodeValidateTest decodeApiErrorTest
      "b" "lic" "app" = .error (.Parsing "bad error shape") :=
  ⟨(c3_validate_license_behaviour testChannel decodeValidateTest
      decodeApiErrorTest "b" "lic" "app" "H:lic" rfl).1
    200 "ct" "pt" { success := "true", token := "tok" } rfl rfl rfl rfl rfl,
    (c3_validate_license_behaviour errorChannel decodeValidateTest
      decodeApiErrorTest "b" "lic" "app" "H:lic" rfl).2.2.2.2.1
    403 "cx" "px" "bad error shape" rfl rfl rfl rfl rfl⟩

/-- C4: Empty-body short-circuit. When the transport's response text is
empty, `_send_secure` returns `{status, body := none}` for every possible
`decrypt` operation (so decryption is never invoked); when the text is
non-empty, it returns `{status, body := some (decrypt id text)}`. -/
theorem c4_empty_body_short_circuit {α : Type} (ch : Channel)
    (toJson : α → Except String String) (url : String) (body : Option α)
    (method : Method) (id hdr : String) (breq : BuiltRequest) (status : Nat)
    (text : String)
    (hh : ch.encrypt_header id = .ok hdr)
    (hb : buildRequest ch toJson hdr url body method id = .ok breq)
    (hex : ch.execute breq = .ok (status, text)) :
    (text.isEmpty = true → ∀ dec,
      sendSecure { ch with decrypt := dec } toJson url body method id
        = .ok { status := status, body := none })
    ∧ (text.isEmpty = false → ∀ d, ch.decrypt id text = .ok d →
      sendSecure ch toJson url body method id
        = .ok { status := status, body := some d }) := by
  constructor
  · intro he dec
    simp only [sendSecure, buildRequest_decrypt_irrel, hh, hb, hex, he,
      Except.mapError, Bind.bind, Except.bind, pure, Except.pure]
  · intro he d hd
    simp only [sendSecure, hh, hb, hex, he, hd,
      Except.mapError, Bind.bind, Except.bind, pure, Except.pure]

/-- C4 witness: an empty 204 response yields `body := none` under an
arbitrary `decrypt`, and `testChannel`'s non-empty response yields the
decrypted body. -/
theorem c4_empty_body_short_circuit_witness :
    sendSecure { emptyBodyChannel with decrypt := fun _ _ => .error "unused" }
      (fun (_ : Unit) => .ok "null") "u" none .GET "id"
      = .ok { status := 204, body := none }
    ∧ sendSecure testChannel (fun (_ : Unit) => .ok "null") "u" none .GET
      "lic" = .ok { status := 200, body := some "pt" } :=
  ⟨(c4_empty_body_short_circuit emptyBodyChannel (fun (_ : Unit) => .ok "null")
      "u" none .GET "id" "H:id"
      { method := .GET, url := "u", authorization := "H:id",
        versionHeader := "v1", contentType := none, body := none }
      204 "" rfl rfl rfl).1 rfl _,
    (c4_empty_body_short_circuit testChannel (fun (_ : Unit) => .ok "null")
      "u" none .GET "lic" "H:lic"
      { method := .GET, url := "u", authorization := "H:lic",
        versionHeader := "v1", contentType := none, body := none }
      200 "ct" rfl rfl rfl).2 rfl "pt" rfl⟩

/-- C5: Extension asymmetry. On a path that has a file name (exactly the
domain where Rust's `set_extension` rewrites rather than no-ops) and whose
extension is missing or not `chipa`, `save` succeeds (given the encryption
steps succeed) and silently writes to the path rewritten to the `chipa`
extension, while `load` on any path without the `chipa` extension fails with
`InvalidFileFormat` for every file content and every key — before any
decryption. -/
theorem c5_extension_asymmetry (cap : Capability) (envc : Codec ChipaFile)
    (f : ChipaFile) (path : List Char) (key : String) (eb db bb : List Nat)
    (hfn : fileName? path ≠ none)
    (hext : extension path ≠ some chipaExt)
    (henc : cap.encrypt_bytes f.version key f.body = .ok eb)
    (hes : envc.ser ⟨f.version, eb⟩ = .ok db)
    (hbe : cap.base_encrypt_bytes f.version db = .ok bb) :
    ChipaFile.save cap envc f path key
      = .ok (setExtension path chipaExt,
          [f.version / 256 % 256, f.version % 256] ++ bb)
    ∧ extension (setExtension path chipaExt) = some chipaExt
    ∧ ∀ (file : List Nat) (key2 : String),
        isInvalidFileFormat (ChipaFile.load cap envc path file key2)
          = true := by
  refine ⟨?_, extension_setExtension path hfn, ?_⟩
  · simp only [ChipaFile.save, ChipaFile.encrypt_body,
      savePath_of_not_chipa hext, henc, hes, hbe, Except.mapError,
      Bind.bind, Except.bind, pure, Except.pure]
  · intro file key2
    obtain ⟨m, hm⟩ := loadExtCheck_err hext
    simp only [ChipaFile.load, hm, Bind.bind, Except.bind,
      isInvalidFileFormat]

/-- C5 witness: path `dat` (no extension) is saved as `dat.chipa`, while
loading from `dat` is an `InvalidFileFormat` error for a sample content and
key. -/
theorem c5_extension_asymmetry_witness :
    ChipaFile.save testCap envPairCodec ⟨1, [42]⟩ ['d', 'a', 't'] "k1"
      = .ok (['d', 'a', 't', '.', 'c', 'h', 'i', 'p', 'a'],
          [0, 1] ++ [42, 7, 1])
    ∧ extension ['d', 'a', 't', '.', 'c', 'h', 'i', 'p', 'a']
      = some chipaExt
    ∧ isInvalidFileFormat
        (ChipaFile.load testCap envPairCodec ['d', 'a', 't'] [9, 9] "k2")
      = true := by
  have h := c5_extension_asymmetry testCap envPairCodec ⟨1, [42]⟩
    ['d', 'a', 't'] "k1" [7, 42] [1, 7, 42] [42, 7, 1]
    (by decide) (by decide) rfl rfl rfl
  exact ⟨h.1, h.2.1, h.2.2 [9, 9] "k2"⟩

/-- C6: Truncation and unknown-version rejection. On a `chipa` path, a file
shorter than 2 bytes loads to `InvalidFileFormat`; a file of at least 2
bytes whose big-endian leading number `Version::try_from` rejects loads to a
`Decryption` error, for every remainder — never falling back to a known
version. -/
theorem c6_truncation_unknown_version (cap : Capability)
    (envc : Codec ChipaFile) (path : List Char) (key : String)
    (hext : extension path = some chipaExt) :
    (∀ file : List Nat, file.length < 2 →
      ChipaFile.load cap envc path file key
        = .error (.InvalidFileFormat "File is too small"))
    ∧ (∀ (b0 b1 : Nat) (rest : List Nat) (m : String),
      cap.tryFrom (b0 * 256 + b1) = .error m →
      ChipaFile.load cap envc path (b0 :: b1 :: rest) key
        = .error (.Decryption m)) := by
  constructor
  · intro file hlen
    match file with
    | [] =>
      simp only [ChipaFile.load, loadExtCheck_chipa hext,
        Bind.bind, Except.bind, throw, throwThe, MonadExceptOf.throw]
    | [b] =>
      simp only [ChipaFile.load, loadExtCheck_chipa hext,
        Bind.bind, Except.bind, throw, throwThe, MonadExceptOf.throw]
    | b0 :: b1 :: rest => exact absurd hlen (by simp)
  · intro b0 b1 rest m htf
    simp only [ChipaFile.load, loadExtCheck_chipa hext, htf,
      Bind.bind, Except.bind, Except.mapError]

/-- C6 witness: on `t.chipa`, the one-byte file `[5]` is rejected as too
small and the two-byte file `[0, 2]` (version 2, unknown to `testCap`) is
rejected with a Decryption error. -/
theorem c6_truncation_unknown_version_witness :
    ChipaFile.load testCap envPairCodec ['t', '.', 'c', 'h', 'i', 'p', 'a']
      [5] "k1" = .error (.InvalidFileFormat "File is too small")
    ∧ ChipaFile.load testCap envPairCodec ['t', '.', 'c', 'h', 'i', 'p', 'a']
      [0, 2] "k1" = .error (.Decryption "unknown version") := by
  have h := c6_truncation_unknown_version testCap envPairCodec
    ['t', '.', 'c', 'h', 'i', 'p', 'a'] "k1" (by decide)
  exact ⟨h.1 [5] (by decide), h.2 0 2 [] "unknown version" rfl⟩

/-- C7: On-disk layout. `save` writes exactly the 2-byte big-endian encoding
of the version followed by the base-encrypted serialized envelope, the
prefix unencrypted; `load` parses the first two bytes as a big-endian
version number and base-decrypts only the bytes after them. -/
theorem c7_on_disk_layout (cap : Capability) (envc : Codec ChipaFile)
    (f : ChipaFile) (path : List Char) (key : String) (eb db bb : List Nat)
    (hv : f.version < 65536)
    (hext : extension path = some chipaExt)
    (henc : cap.encrypt_bytes f.version key f.body = .ok eb)
    (hes : envc.ser ⟨f.version, eb⟩ = .ok db)
    (hbe : cap.base_encrypt_bytes f.version db = .ok bb) :
    (ChipaFile.save cap envc f path key
      = .ok (path, [f.version / 256 % 256, f.version % 256] ++ bb)
      ∧ f.version / 256 % 256 * 256 + f.version % 256 = f.version
      ∧ f.version / 256 % 256 < 256 ∧ f.version % 256 < 256)
    ∧ ∀ (b0 b1 : Nat) (rest slice : List Nat) (w : Nat) (g : ChipaFile)
        (body2 : List Nat),
      cap.tryFrom (b0 * 256 + b1) = .ok w →
      cap.base_decrypt_bytes w rest = .ok slice →
      envc.deser slice = .ok g →
      cap.decrypt_bytes g.version key g.body = .ok body2 →
      ChipaFile.load cap envc path (b0 :: b1 :: rest) key
        = .ok ⟨g.version, body2⟩ := by
  constructor
  · refine ⟨?_, by omega, by omega, by omega⟩
    simp only [ChipaFile.save, ChipaFile.encrypt_body,
      savePath_of_chipa hext, henc, hes, hbe, Except.mapError,
      Bind.bind, Except.bind, pure, Except.pure]
  · intro b0 b1 rest slice w g body2 htf hbd hde hdec
    simp only [ChipaFile.load, ChipaFile.decrypt_body,
      loadExtCheck_chipa hext, htf, hbd, hde, hdec,
      Bind.bind, Except.bind, Except.mapError, pure, Except.pure]

/-- C7 witness: with `testCap`, the envelope `⟨1, [42]⟩` is written as
`[0, 1]` followed by the base ciphertext, and the written file loads by
parsing `0 * 256 + 1` and base-decrypting the remainder only. -/
theorem c7_on_disk_layout_witness :
    (ChipaFile.save testCap envPairCodec ⟨1, [42]⟩
        ['t', '.', 'c', 'h', 'i', 'p', 'a'] "k1"
      = .ok (['t', '.', 'c', 'h', 'i', 'p', 'a'], [0, 1] ++ [42, 7, 1])
      ∧ 1 / 256 % 256 * 256 + 1 % 256 = 1
      ∧ 1 / 256 % 256 < 256 ∧ 1 % 256 < 256)
    ∧ ChipaFile.load testCap envPairCodec ['t', '.', 'c', 'h', 'i', 'p', 'a']
        (0 :: 1 :: [42, 7, 1]) "k1" = .ok ⟨1, [42]⟩ := by
  have h := c7_on_disk_layout testCap envPairCodec ⟨1, [42]⟩
    ['t', '.', 'c', 'h', 'i', 'p', 'a'] "k1" [7, 42] [1, 7, 42] [42, 7, 1]
    (by decide) (by decide) rfl rfl rfl
  exact ⟨h.1, h.2 0 1 [42, 7, 1] [1, 7, 42] 1 ⟨1, [7, 42]⟩ [42]
    rfl rfl rfl rfl⟩

/-- C8 counterexample: the claim that every publicly produced envelope's
`body` holds only ciphertext fails already for `ChipaFile.new`: at version 1
and payload `42`, `new` stores exactly the payload's plain codec
serialization `[42]` in `body`, and `read` — which takes no key and performs
no decryption — recovers the payload from it. The in-memory envelope thus
holds (serialized) plaintext application data for its whole lifetime, not
transiently. -/
theorem c8_counterexample :
    natCodec.ser 42 = .ok [42]
    ∧ ChipaFile.new natCodec 1 42 = .ok ⟨1, [42]⟩
    ∧ ChipaFile.read natCodec ⟨1, [42]⟩ = .ok 42 := by
  refine ⟨rfl, rfl, rfl⟩

/-- C8 amended: for every envelope produced by `new`, `write`, or a
successful `load` of a saved file, `body` holds the payload's plain codec
serialization; ciphertext exists only inside `save` (on a temporary copy)
and on disk, and `load` undoes both encryption layers before returning the
envelope. -/
theorem c8_body_is_plain_serialization (cap : Capability)
    (envc : Codec ChipaFile) {α : Type} (pc : Codec α) (v : Nat)
    (payload : α) (pb : List Nat)
    (hser : pc.ser payload = .ok pb) :
    ChipaFile.new pc v payload = .ok ⟨v, pb⟩
    ∧ (∀ f : ChipaFile, ChipaFile.write pc f payload = .ok ⟨f.version, pb⟩)
    ∧ ∀ (path : List Char) (key : String) (eb db bb : List Nat),
      v < 65536 → extension path = some chipaExt →
      cap.tryFrom v = .ok v →
      cap.encrypt_bytes v key pb = .ok eb →
      cap.decrypt_bytes v key eb = .ok pb →
      envc.ser ⟨v, eb⟩ = .ok db → envc.deser db = .ok ⟨v, eb⟩ →
      cap.base_encrypt_bytes v db = .ok bb →
      cap.base_decrypt_bytes v bb = .ok db →
      ChipaFile.load cap envc path ([v / 256 % 256, v % 256] ++ bb) key
        = .ok ⟨v, pb⟩ := by
  refine ⟨?_, ?_, ?_⟩
  · simp only [ChipaFile.new, hser]
  · intro f; simp only [ChipaFile.write, hser]
  · intro path key eb db bb hv hext htf henc hdec hes hed hbe hbd
    have hbytes : v / 256 % 256 * 256 + v % 256 = v := by omega
    simp only [ChipaFile.load, ChipaFile.decrypt_body,
      loadExtCheck_chipa hext, List.cons_append, List.nil_append,
      Bind.bind, Except.bind, Except.mapError, pure, Except.pure,
      hbytes, htf, hbd, hed, hdec]

/-- C8 amended witness: the three conjuncts at `testCap` on payload `42`. -/
theorem c8_body_is_plain_serialization_witness :
    ChipaFile.new natCodec 1 42 = .ok ⟨1, [42]⟩
    ∧ ChipaFile.write natCodec ⟨1, [7]⟩ 42 = .ok ⟨1, [42]⟩
    ∧ ChipaFile.load testCap envPairCodec ['t', '.', 'c', 'h', 'i', 'p', 'a']
        ([1 / 256 % 256, 1 % 256] ++ [42, 7, 1]) "k1" = .ok ⟨1, [42]⟩ := by
  have h := c8_body_is_plain_serialization testCap envPairCodec natCodec 1
    42 [42] rfl
  exact ⟨h.1, h.2.1 ⟨1, [7]⟩,
    h.2.2 ['t', '.', 'c', 'h', 'i', 'p', 'a'] "k1" [7, 42] [1, 7, 42]
      [42, 7, 1] (by decide) (by decide) rfl rfl rfl rfl rfl rfl rfl⟩

/-- C9: In-memory write/read round-trip without keys. `write` replaces the
body with exactly the payload's codec serialization and `read` — which takes
neither a key nor the capability — recovers the payload; likewise for `new`
followed by `read`. -/
theorem c9_write_read_roundtrip {α : Type} (pc : Codec α) (f : ChipaFile)
    (v : Nat) (x : α) (bs : List Nat)
    (hs : pc.ser x = .ok bs) (hd : pc.deser bs = .ok x) :
    ChipaFile.write pc f x = .ok ⟨f.version, bs⟩
    ∧ ChipaFile.read pc ⟨f.version, bs⟩ = .ok x
    ∧ ChipaFile.new pc v x = .ok ⟨v, bs⟩
    ∧ ChipaFile.read pc ⟨v, bs⟩ = .ok x := by
  refine ⟨?_, ?_, ?_, ?_⟩
  · simp only [ChipaFile.write, hs]
  · simp only [ChipaFile.read, hd, Except.mapError]
  · simp only [ChipaFile.new, hs]
  · simp only [ChipaFile.read, hd, Except.mapError]

/-- C9 witness: writing then reading `42` through `natCodec`. -/
theorem c9_write_read_roundtrip_witness :
    ChipaFile.write natCodec ⟨1, [7]⟩ 42 = .ok ⟨1, [42]⟩
    ∧ ChipaFile.read natCodec ⟨1, [42]⟩ = .ok 42
    ∧ ChipaFile.new natCodec 1 42 = .ok ⟨1, [42]⟩
    ∧ ChipaFile.read natCodec ⟨1, [42]⟩ = .ok 42 :=
  c9_write_read_roundtrip natCodec ⟨1, [7]⟩ 1 42 [42] rfl rfl

/-- C10: `save` leaves the envelope unchanged. In the source `save` takes
`&self` and never reassigns it — the encrypted envelope is a fresh
temporary — so after the call (success or error) the envelope's fields are
exactly what they were, and a second `save` on the post-call envelope with
the same arguments produces the same result, hence writes the same
content. -/
theorem c10_save_preserves_envelope (cap : Capability)
    (envc : Codec ChipaFile) (f : ChipaFile) (path : List Char)
    (key : String) :
    (ChipaFile.saveWithState cap envc f path key).2 = f
    ∧ (ChipaFile.saveWithState cap envc f path key).2.version = f.version
    ∧ (ChipaFile.saveWithState cap envc f path key).2.body = f.body
    ∧ ChipaFile.save cap envc
        (ChipaFile.saveWithState cap envc f path key).2 path key
      = ChipaFile.save cap envc f path key :=
  ⟨rfl, rfl, rfl, rfl⟩
